import Mathlib

/-!
Verification of the memory-transform and asynchronous-copy engine of a
GPU/TPU kernel-construction layer.  We shallowly embed the address
transforms, semaphore protocols and pipeline coordinator and prove the
stated properties about them.
-/

namespace JaxMemXform

/-- The swizzle-128 address map over linear element offsets, as computed
inside the `copy` helper of `tests/mosaic/gpu_test.py`: the linear offset is
decomposed into (tile start, row, row offset), the 16-byte group index within
the row is XORed with the row index, and the destination linear offset is
reassembled.  `bpe` is the byte width of one element. -/
def swizzle128 (bpe linear : Nat) : Nat :=
  let elemsPerTile := 1024 / bpe
  let elemsPerRow := elemsPerTile / 8
  let elemsPerGroup := 16 / bpe
  let tileOffset := linear % elemsPerTile
  let linearTileStart := linear - tileOffset
  let row := tileOffset / elemsPerRow
  let rowOffset := tileOffset % elemsPerRow
  let srcGroup := rowOffset / elemsPerGroup
  let groupOffset := rowOffset % elemsPerGroup
  let dstGroup := srcGroup ^^^ row
  linearTileStart + row * elemsPerRow + dstGroup * elemsPerGroup + groupOffset

/-- The swizzle map written in terms of `k = 16 / bpe`, the number of
elements in one 16-byte group (so one 128-byte row holds `8*k` elements and
one 1024-byte tile holds `64*k`). -/
def swzCore (k linear : Nat) : Nat :=
  linear - linear % (64 * k)
    + (linear % (64 * k) / (8 * k)) * (8 * k)
    + ((linear % (64 * k) % (8 * k) / k) ^^^ (linear % (64 * k) / (8 * k))) * k
    + linear % (64 * k) % (8 * k) % k

lemma swizzle128_eq_core (bpe k : Nat) (hb : 0 < bpe) (hk : bpe * k = 16) :
    swizzle128 bpe = swzCore k := by
  funext linear
  have h1024 : (1024 : Nat) = bpe * (64 * k) := by
    calc (1024 : Nat) = 64 * 16 := by norm_num
    _ = 64 * (bpe * k) := by rw [hk]
    _ = bpe * (64 * k) := by ring
  have h1 : 1024 / bpe = 64 * k := by
    rw [h1024, Nat.mul_div_cancel_left _ hb]
  have h16 : (16 : Nat) = bpe * k := hk.symm
  have h3 : 16 / bpe = k := by
    rw [h16, Nat.mul_div_cancel_left _ hb]
  have h2 : 64 * k / 8 = 8 * k := by omega
  simp only [swizzle128, swzCore, h1, h3, h2]

lemma swzCore_apply (k : Nat) (q r : Nat) (hr : r < 64 * k) :
    swzCore k (q * (64 * k) + r) =
      q * (64 * k) + (r / (8 * k)) * (8 * k)
        + ((r % (8 * k) / k) ^^^ (r / (8 * k))) * k + r % (8 * k) % k := by
  have hmod : (q * (64 * k) + r) % (64 * k) = r := by
    rw [Nat.add_comm, Nat.add_mul_mod_self_right, Nat.mod_eq_of_lt hr]
  simp only [swzCore, hmod, Nat.add_sub_cancel]

lemma xor_lt_eight {a b : Nat} (ha : a < 8) (hb : b < 8) : a ^^^ b < 8 := by
  have h : a ^^^ b < 2 ^ 3 :=
    Nat.xor_lt_two_pow (by norm_num [ha] : a < 2 ^ 3) (by norm_num [hb] : b < 2 ^ 3)
  simpa using h

lemma swzCore_invol (k : Nat) (hk : 0 < k) (off : Nat) :
    swzCore k (swzCore k off) = off := by
  have h64k : 0 < 64 * k := by omega
  have h8k : 0 < 8 * k := by omega
  set q := off / (64 * k) with hq
  set r := off % (64 * k) with hrdef
  have hoff : off = q * (64 * k) + r := by
    rw [hq, hrdef, Nat.mul_comm]
    exact (Nat.div_add_mod off (64 * k)).symm
  have hr : r < 64 * k := Nat.mod_lt _ h64k
  set row := r / (8 * k) with hrow
  set roff := r % (8 * k) with hroff
  set sg := roff / k with hsg
  set goff := roff % k with hgoff
  have hrofflt : roff < 8 * k := Nat.mod_lt _ h8k
  have hrowlt : row < 8 := Nat.div_lt_of_lt_mul (by omega)
  have hsglt : sg < 8 := Nat.div_lt_of_lt_mul (by omega)
  have hgofflt : goff < k := Nat.mod_lt _ hk
  have hdglt : sg ^^^ row < 8 := xor_lt_eight hsglt hrowlt
  have h1 : swzCore k off = q * (64 * k) + (row * (8 * k) + ((sg ^^^ row) * k + goff)) := by
    rw [hoff, swzCore_apply k q r hr]
    rw [← hrow, ← hroff, ← hsg, ← hgoff]
    ring
  set R := row * (8 * k) + ((sg ^^^ row) * k + goff) with hR
  have hb1 : row * (8 * k) ≤ 7 * (8 * k) := mul_le_mul_right' (by omega) _
  have hb2 : (sg ^^^ row) * k ≤ 7 * k := mul_le_mul_right' (by omega) _
  have hXlt : (sg ^^^ row) * k + goff < 8 * k := by linarith
  have hRlt : R < 64 * k := by rw [hR]; linarith
  have h2 : swzCore k (swzCore k off) =
      q * (64 * k) + (R / (8 * k)) * (8 * k)
        + ((R % (8 * k) / k) ^^^ (R / (8 * k))) * k + R % (8 * k) % k := by
    rw [h1, swzCore_apply k q R hRlt]
  have e1 : R / (8 * k) = row := by
    rw [hR, Nat.add_comm, Nat.add_mul_div_right _ _ h8k, Nat.div_eq_of_lt hXlt]
    exact Nat.zero_add row
  have e2 : R % (8 * k) = (sg ^^^ row) * k + goff := by
    rw [hR, Nat.add_comm, Nat.add_mul_mod_self_right, Nat.mod_eq_of_lt hXlt]
  have e3 : ((sg ^^^ row) * k + goff) / k = sg ^^^ row := by
    rw [Nat.add_comm, Nat.add_mul_div_right _ _ hk, Nat.div_eq_of_lt hgofflt]
    exact Nat.zero_add _
  have e4 : ((sg ^^^ row) * k + goff) % k = goff := by
    rw [Nat.add_comm, Nat.add_mul_mod_self_right, Nat.mod_eq_of_lt hgofflt]
  have e5 : (sg ^^^ row) ^^^ row = sg := by
    rw [Nat.xor_assoc, Nat.xor_self, Nat.xor_zero]
  rw [h2, e1, e2, e3, e4, e5]
  have hrdecomp : r = 8 * k * row + roff := by
    rw [hrow, hroff]
    exact (Nat.div_add_mod r (8 * k)).symm
  have hroffdecomp : roff = k * sg + goff := by
    rw [hsg, hgoff]
    exact (Nat.div_add_mod roff k).symm
  rw [hoff]
  linarith [hrdecomp, hroffdecomp]

/-- The `copy` kernel helper stores `src[idx]` to `dst[s idx]` for every
linear index below `n` (the nested `nd_loop` over the whole shape); the
destination buffer keeps its previous contents elsewhere. -/
def storeAll {α : Type} (s : Nat → Nat) (src dst : Nat → α) (n : Nat) : Nat → α :=
  (List.range n).foldl (fun d i => Function.update d (s i) (src i)) dst

lemma storeAll_succ {α : Type} (s : Nat → Nat) (src dst : Nat → α) (n : Nat) :
    storeAll s src dst (n + 1)
      = Function.update (storeAll s src dst n) (s n) (src n) := by
  unfold storeAll
  rw [List.range_succ, List.foldl_append]
  rfl

lemma storeAll_hit {α : Type} (s : Nat → Nat) (src dst : Nat → α) (n : Nat)
    (hinj : ∀ i < n, ∀ j < n, s i = s j → i = j) (j : Nat) (hj : j < n) :
    storeAll s src dst n (s j) = src j := by
  induction n with
  | zero => omega
  | succ m ih =>
    rw [storeAll_succ]
    by_cases hjm : j = m
    · subst hjm
      simp [Function.update]
    · have hne : s j ≠ s m := fun h => hjm (hinj j (by omega) m (by omega) h)
      rw [Function.update_noteq hne]
      exact ih (fun i hi j2 hj2 => hinj i (by omega) j2 (by omega)) (by omega)

lemma storeAll_miss {α : Type} (s : Nat → Nat) (src dst : Nat → α) (n : Nat)
    (a : Nat) (ha : ∀ i < n, s i ≠ a) :
    storeAll s src dst n a = dst a := by
  induction n with
  | zero => rfl
  | succ m ih =>
    rw [storeAll_succ, Function.update_noteq (fun h => ha m (by omega) h.symm)]
    exact ih fun i hi => ha i (by omega)

lemma swzCore_range (k : Nat) (hk : 0 < k) (T b : Nat) (hb : b < T * (64 * k)) :
    swzCore k b < T * (64 * k) := by
  have h64k : 0 < 64 * k := by omega
  have h8k : 0 < 8 * k := by omega
  set q := b / (64 * k) with hq
  set r := b % (64 * k) with hrdef
  have hbeq : b = q * (64 * k) + r := by
    rw [hq, hrdef, Nat.mul_comm]
    exact (Nat.div_add_mod b (64 * k)).symm
  have hr : r < 64 * k := Nat.mod_lt _ h64k
  have happ := swzCore_apply k q r hr
  set row := r / (8 * k) with hrow
  set roff := r % (8 * k) with hroff
  have hrofflt : roff < 8 * k := Nat.mod_lt _ h8k
  have hrowlt : row < 8 := Nat.div_lt_of_lt_mul (by omega)
  have hsglt : roff / k < 8 := Nat.div_lt_of_lt_mul (by omega)
  have hdglt : roff / k ^^^ row < 8 := xor_lt_eight hsglt hrowlt
  have hgofflt : roff % k < k := Nat.mod_lt _ hk
  have hqT : q < T := by
    rw [hq]
    exact Nat.div_lt_of_lt_mul (by linarith)
  have hb1 : row * (8 * k) ≤ 7 * (8 * k) := mul_le_mul_right' (by omega) _
  have hb2 : (roff / k ^^^ row) * k ≤ 7 * k := mul_le_mul_right' (by omega) _
  have hq1 : q * (64 * k) + 64 * k ≤ T * (64 * k) := by
    calc q * (64 * k) + 64 * k = (q + 1) * (64 * k) := by ring
    _ ≤ T * (64 * k) := mul_le_mul_right' (by omega) _
  rw [hbeq, happ]
  linarith

lemma swzCore_inj (k : Nat) (hk : 0 < k) {a b : Nat}
    (h : swzCore k a = swzCore k b) : a = b := by
  have := congrArg (swzCore k) h
  rwa [swzCore_invol k hk, swzCore_invol k hk] at this

/-- C2: copying a buffer with swizzle 128 into an intermediate buffer and then
copying that intermediate buffer with swizzle 128 into the output yields
output equal to the original input, for every supported element byte width
(any divisor of the 16-byte group), every whole number of 1024-byte tiles,
every input and every pair of initial buffer contents. -/
theorem copy_swizzle128_twice_id {α : Type} (bpe : Nat) (hb : 0 < bpe)
    (hdvd : bpe ∣ 16) (T : Nat) (x d1 d2 : Nat → α) (a : Nat)
    (ha : a < T * (1024 / bpe)) :
    storeAll (swizzle128 bpe) (storeAll (swizzle128 bpe) x d1 (T * (1024 / bpe)))
        d2 (T * (1024 / bpe)) a = x a := by
  set k := 16 / bpe with hkdef
  have hbk : bpe * k = 16 := Nat.mul_div_cancel' hdvd
  have hk : 0 < k := by
    rcases Nat.eq_zero_or_pos k with h0 | h0
    · rw [h0, Nat.mul_zero] at hbk
      omega
    · exact h0
  have hcore : swizzle128 bpe = swzCore k := swizzle128_eq_core bpe k hb hbk
  have h1024 : 1024 / bpe = 64 * k := by
    have h1024eq : (1024 : Nat) = bpe * (64 * k) := by
      calc (1024 : Nat) = 64 * 16 := by norm_num
      _ = 64 * (bpe * k) := by rw [hbk]
      _ = bpe * (64 * k) := by ring
    rw [h1024eq, Nat.mul_div_cancel_left _ hb]
  rw [h1024] at ha ⊢
  rw [hcore]
  set n := T * (64 * k) with hn
  have hinj : ∀ i < n, ∀ j < n, swzCore k i = swzCore k j → i = j :=
    fun i _ j _ h => swzCore_inj k hk h
  have hsa : swzCore k a < n := swzCore_range k hk T a ha
  have hstep := storeAll_hit (swzCore k) (storeAll (swzCore k) x d1 n) d2 n hinj
    (swzCore k a) hsa
  rw [swzCore_invol k hk] at hstep
  rw [hstep]
  exact storeAll_hit (swzCore k) x d1 n hinj a ha

/-- Closed-form witness for `copy_swizzle128_twice_id`. -/
theorem copy_swizzle128_twice_id_witness :
    storeAll (swizzle128 4)
        (storeAll (swizzle128 4) (fun a => a) (fun _ => 0) (1 * (1024 / 4)))
        (fun _ => 0) (1 * (1024 / 4)) 5 = 5 :=
  copy_swizzle128_twice_id 4 (by norm_num) (by norm_num) 1 (fun a => a)
    (fun _ => 0) (fun _ => 0) 5 (by norm_num)

set_option maxRecDepth 100000 in
/-- C1 counterexample: the claimed XOR pattern does not hold of the kernel
that copies the 8×32 float32 buffer `x = arange(256).reshape(8, 32)` into
shared memory with swizzle 128 and then back to the output with swizzle 128:
that two-copy composition is the identity, so at `i = 1, j = 0, g = 0`
(linear offset 32) the output is `x[1, 0] = 32` and not the claimed
`x[1, (0 ^^^ 1)*4 + 0] = 36`. -/
theorem copy_swizzle_two_copies_counterexample :
    ¬ (storeAll (swizzle128 4)
          (storeAll (swizzle128 4) (fun a => a) (fun _ => 0) 256)
          (fun _ => 0) 256 (1 * 32 + (0 * 4 + 0))
        = 1 * 32 + ((0 ^^^ 1) * 4 + 0)) := by decide

set_option maxRecDepth 100000 in
/-- C1 (amended): for the 8×32 float32 buffer `x = arange(256).reshape(8, 32)`
(element values equal to their linear offsets), a single copy with swizzle
128 — not the there-and-back two-copy pair, which is the identity — produces
an output `y` with `y[i, j*4 + g] = x[i, (j ^^^ i)*4 + g]` for all
`i, j < 8` and `g < 4`, with the swizzle address map decomposing the linear
offset into (tile start, row, row offset), XORing the 16-byte group index
with the row, and reassembling the offset. -/
theorem copy_swizzle_8x32 :
    ∀ i < 8, ∀ j < 8, ∀ g < 4,
      storeAll (swizzle128 4) (fun a => a) (fun _ => 0) 256 (i * 32 + (j * 4 + g))
        = i * 32 + ((j ^^^ i) * 4 + g) := by decide

/-- Closed-form witness for `copy_swizzle_8x32`. -/
theorem copy_swizzle_8x32_witness :
    storeAll (swizzle128 4) (fun a => a) (fun _ => 0) 256 (1 * 32 + (2 * 4 + 3))
      = 1 * 32 + ((2 ^^^ 1) * 4 + 3) :=
  copy_swizzle_8x32 1 (by norm_num) 2 (by norm_num) 3 (by norm_num)

/-- Register contents built by `iota_tensor` in `tests/mosaic/gpu_test.py`:
thread `t` of the 128-thread warpgroup holds, in the vector register at
position `(rowTile, colTile, rowSubtile, 0)` of the WGMMA fragment layout, at
vector slot `colOffset ∈ {0, 1}`, the value `row * n + (colOffset + col)`
where `row = warpId*16 + withinWarpId/4 + rowTile*64 + rowSubtile*8` and
`col = (withinWarpId%4)*2 + colTile*8`. -/
def iotaRegValue (n t rowTile colTile rowSubtile colOffset : Nat) : Nat :=
  let warpId := t / 32
  let withinWarpId := t % 32
  let warpRowStart := warpId * 16
  let withinWarpRow := withinWarpId / 4
  let startRow := warpRowStart + withinWarpRow
  let startCol := (withinWarpId % 4) * 2
  let row := startRow + (rowTile * 64 + rowSubtile * 8)
  let col := startCol + colTile * 8
  row * n + (colOffset + col)

/-- The value the `test_iota_tensor` kernel stores at `dst[t, c]` for `m = 64`:
the registers of shape `(1, n/8, 2, 1)` are enumerated flat as
`i = colTile * 2 + rowSubtile`, and each vector register contributes
columns `c = 2*i + j` for its two slots `j`. -/
def iotaStored (n t c : Nat) : Nat :=
  iotaRegValue n t 0 (c / 2 / 2) (c / 2 % 2) (c % 2)

/-- C9: under the WGMMA fragment layout, lane `t` (warp `t/32`, lane id
`t%32`) holds, for column tile `ct`, row half `rh` and column half `ch`, at
flat register slot `2*(2*ct + rh) + ch`, the element of the iota tensor at
row `(t/32)*16 + (t%32)/4 + 8*rh` and column `(t%32%4)*2 + 8*ct + ch`. -/
theorem iota_wgmma_layout (n t ct rh ch : Nat) (hrh : rh < 2) (hch : ch < 2) :
    iotaStored n t (2 * (2 * ct + rh) + ch)
      = (t / 32 * 16 + t % 32 / 4 + 8 * rh) * n + (t % 32 % 4 * 2 + 8 * ct + ch) := by
  have h1 : (2 * (2 * ct + rh) + ch) / 2 / 2 = ct := by omega
  have h2 : (2 * (2 * ct + rh) + ch) / 2 % 2 = rh := by omega
  have h3 : (2 * (2 * ct + rh) + ch) % 2 = ch := by omega
  unfold iotaStored
  rw [h1, h2, h3]
  simp only [iotaRegValue]
  ring

/-- Closed-form witness for `iota_wgmma_layout`. -/
theorem iota_wgmma_layout_witness :
    iotaStored 64 5 (2 * (2 * 3 + 1) + 0)
      = (5 / 32 * 16 + 5 % 32 / 4 + 8 * 1) * 64 + (5 % 32 % 4 * 2 + 8 * 3 + 0) :=
  iota_wgmma_layout 64 5 3 1 0 (by norm_num) (by norm_num)

/-! ### The strided-view fold transform -/

/-- Product of the extents of a list of `(shape, stride)` dimensions. -/
def prodShapes (dims : List (Nat × Nat)) : Nat := (dims.map Prod.fst).prod

/-- Stride of the last dimension of a `(shape, stride)` list (1 if empty). -/
def lastStride (dims : List (Nat × Nat)) : Nat := (dims.map Prod.snd).getLastD 1

/-- The contiguity condition on a run of dimensions required by `fold`:
`stride[i] = stride[i+1] * shape[i+1]` for every adjacent pair. -/
def contig : List (Nat × Nat) → Bool
  | (_, st0) :: (sh1, st1) :: rest => (st0 == st1 * sh1) && contig ((sh1, st1) :: rest)
  | _ => true

/-- Modelled from the spec: `memref_fold` of the Strided-View Engine is not
among the sources (only its tests are).  Per §4.1, `fold(dim, rank)` merges
the `rank` dimensions starting at `dim` into their product with the stride of
the innermost merged dimension when they are contiguous, and fails at
construction time with a not-implemented class error otherwise. -/
def memref_fold (dims : List (Nat × Nat)) (dim rank : Nat) :
    Except String (List (Nat × Nat)) :=
  if dim + rank ≤ dims.length ∧ 1 ≤ rank then
    let seg := (dims.drop dim).take rank
    if contig seg then
      Except.ok (dims.take dim
        ++ (prodShapes seg, lastStride seg) :: dims.drop (dim + rank))
    else Except.error "NotImplementedError: fold of non-contiguous dims"
  else Except.error "invalid fold arguments"

/-- Address of a multi-index in a strided view: the sum of index times
stride over all dimensions. -/
def addr : List (Nat × Nat) → List Nat → Nat
  | (_, st) :: rest, i :: is => i * st + addr rest is
  | _, _ => 0

/-- Row-major decomposition of a flat index over a list of extents: the
multi-index the reshape that merges those extents assigns to the flat
index. -/
def unflatten : List Nat → Nat → List Nat
  | [], _ => []
  | _ :: rest, f => f / rest.prod :: unflatten rest (f % rest.prod)

lemma unflatten_length (l : List Nat) (f : Nat) :
    (unflatten l f).length = l.length := by
  induction l generalizing f with
  | nil => rfl
  | cons s rest ih => simp [unflatten, ih]

lemma lastStride_cons_cons (a b : Nat × Nat) (rest : List (Nat × Nat)) :
    lastStride (a :: b :: rest) = lastStride (b :: rest) := by
  simp [lastStride, List.getLastD_cons]

lemma prodShapes_cons (a : Nat × Nat) (rest : List (Nat × Nat)) :
    prodShapes (a :: rest) = a.1 * prodShapes rest := by
  simp [prodShapes]

lemma contig_head (sh st : Nat) (tail : List (Nat × Nat))
    (h : contig ((sh, st) :: tail) = true) :
    st = prodShapes tail * lastStride ((sh, st) :: tail) := by
  induction tail generalizing sh st with
  | nil =>
    simp [prodShapes, lastStride]
  | cons p rest ih =>
    obtain ⟨sh1, st1⟩ := p
    rw [contig, Bool.and_eq_true, beq_iff_eq] at h
    obtain ⟨h0, h1⟩ := h
    have hrec := ih sh1 st1 h1
    rw [lastStride_cons_cons, prodShapes_cons, h0]
    nth_rewrite 1 [hrec]
    ring

lemma fold_addr_seg (seg : List (Nat × Nat)) (hc : contig seg = true)
    (f : Nat) (hf : f < prodShapes seg) :
    f * lastStride seg = addr seg (unflatten (seg.map Prod.fst) f) := by
  induction seg generalizing f with
  | nil =>
    have : f = 0 := by simpa [prodShapes] using hf
    simp [this, addr]
  | cons p tail ih =>
    obtain ⟨sh0, st0⟩ := p
    rcases tail with _ | ⟨⟨sh1, st1⟩, rest⟩
    · simp [lastStride, unflatten, addr]
    · rw [contig, Bool.and_eq_true, beq_iff_eq] at hc
      obtain ⟨h0, h1⟩ := hc
      rw [prodShapes_cons] at hf
      have hPpos : 0 < prodShapes ((sh1, st1) :: rest) := by
        rcases Nat.eq_zero_or_pos (prodShapes ((sh1, st1) :: rest)) with h | h
        · rw [h, Nat.mul_zero] at hf
          omega
        · exact h
      have hmod : f % prodShapes ((sh1, st1) :: rest)
          < prodShapes ((sh1, st1) :: rest) := Nat.mod_lt _ hPpos
      have hIH := ih h1 (f % prodShapes ((sh1, st1) :: rest)) hmod
      have hL : lastStride ((sh0, st0) :: (sh1, st1) :: rest)
          = lastStride ((sh1, st1) :: rest) := lastStride_cons_cons _ _ _
      have hst0 : st0 = prodShapes ((sh1, st1) :: rest)
          * lastStride ((sh0, st0) :: (sh1, st1) :: rest) :=
        contig_head sh0 st0 _
          (by rw [contig, Bool.and_eq_true, beq_iff_eq]; exact ⟨h0, h1⟩)
      rw [hL] at hst0
      have hunfl : unflatten (((sh0, st0) :: (sh1, st1) :: rest).map Prod.fst) f
          = f / prodShapes ((sh1, st1) :: rest)
              :: unflatten (((sh1, st1) :: rest).map Prod.fst)
                  (f % prodShapes ((sh1, st1) :: rest)) := rfl
      rw [hunfl]
      show f * lastStride ((sh0, st0) :: (sh1, st1) :: rest)
          = f / prodShapes ((sh1, st1) :: rest) * st0
            + addr ((sh1, st1) :: rest)
                (unflatten (((sh1, st1) :: rest).map Prod.fst)
                  (f % prodShapes ((sh1, st1) :: rest)))
      rw [← hIH, hL, hst0]
      have hdm : prodShapes ((sh1, st1) :: rest)
            * (f / prodShapes ((sh1, st1) :: rest))
          + f % prodShapes ((sh1, st1) :: rest) = f :=
        Nat.div_add_mod f (prodShapes ((sh1, st1) :: rest))
      nth_rewrite 1 [← hdm]
      ring

lemma addr_append (a b : List (Nat × Nat)) (ia ib : List Nat)
    (hlen : ia.length = a.length) :
    addr (a ++ b) (ia ++ ib) = addr a ia + addr b ib := by
  induction a generalizing ia with
  | nil =>
    have : ia = [] := List.length_eq_zero.mp (by simpa using hlen)
    simp [this, addr]
  | cons p rest ih =>
    obtain ⟨sh, st⟩ := p
    match ia, hlen with
    | i :: ia2, hlen =>
      show i * st + addr (rest ++ b) (ia2 ++ ib)
          = (i * st + addr rest ia2) + addr b ib
      rw [ih ia2 (by simpa using hlen)]
      ring

/-- C3: for every view and fold request `fold(dim, rank)` within bounds: when
the `rank` dimensions starting at `dim` are contiguous
(`stride[i] = stride[i+1] * shape[i+1]` for each merged pair), the fold
succeeds and the folded view addresses elements exactly as the reshape that
merges those dimensions (the flat index is decomposed row-major over the
merged extents); when they are not contiguous, the fold fails at construction
time with a not-implemented class error and never returns a view. -/
theorem memref_fold_spec (dims : List (Nat × Nat)) (dim rank : Nat)
    (hlen : dim + rank ≤ dims.length) (hrank : 1 ≤ rank) :
    (contig ((dims.drop dim).take rank) = true →
      memref_fold dims dim rank = Except.ok (dims.take dim
          ++ (prodShapes ((dims.drop dim).take rank),
              lastStride ((dims.drop dim).take rank)) :: dims.drop (dim + rank))
      ∧ ∀ (pre post : List Nat) (f : Nat), pre.length = dim →
          f < prodShapes ((dims.drop dim).take rank) →
          addr (dims.take dim
              ++ (prodShapes ((dims.drop dim).take rank),
                  lastStride ((dims.drop dim).take rank)) :: dims.drop (dim + rank))
            (pre ++ f :: post)
          = addr dims
              (pre ++ (unflatten (((dims.drop dim).take rank).map Prod.fst) f ++ post)))
    ∧ (contig ((dims.drop dim).take rank) = false →
        memref_fold dims dim rank
          = Except.error "NotImplementedError: fold of non-contiguous dims") := by
  constructor
  · intro hc
    constructor
    · unfold memref_fold
      rw [if_pos ⟨hlen, hrank⟩]
      simp only [hc, if_true]
    · intro pre post f hpre hf
      have htakelen : (dims.take dim).length = dim := by
        rw [List.length_take]
        omega
      have hdecomp : dims = dims.take dim
          ++ ((dims.drop dim).take rank ++ dims.drop (dim + rank)) := by
        have h1 : dims.drop (dim + rank) = (dims.drop dim).drop rank := by
          rw [List.drop_drop]
        rw [h1, List.take_append_drop, List.take_append_drop]
      have hseglen : (unflatten (((dims.drop dim).take rank).map Prod.fst) f).length
          = ((dims.drop dim).take rank).length := by
        rw [unflatten_length, List.length_map]
      calc addr (dims.take dim
              ++ (prodShapes ((dims.drop dim).take rank),
                  lastStride ((dims.drop dim).take rank)) :: dims.drop (dim + rank))
            (pre ++ f :: post)
          = addr (dims.take dim) pre
              + addr ((prodShapes ((dims.drop dim).take rank),
                    lastStride ((dims.drop dim).take rank)) :: dims.drop (dim + rank))
                  (f :: post) := by
            rw [addr_append _ _ _ _ (by rw [hpre, htakelen])]
      _ = addr (dims.take dim) pre
            + (f * lastStride ((dims.drop dim).take rank)
                + addr (dims.drop (dim + rank)) post) := rfl
      _ = addr (dims.take dim) pre
            + (addr ((dims.drop dim).take rank)
                  (unflatten (((dims.drop dim).take rank).map Prod.fst) f)
                + addr (dims.drop (dim + rank)) post) := by
            rw [fold_addr_seg _ hc f hf]
      _ = addr (dims.take dim
              ++ ((dims.drop dim).take rank ++ dims.drop (dim + rank)))
            (pre ++ (unflatten (((dims.drop dim).take rank).map Prod.fst) f ++ post)) := by
            rw [addr_append (dims.take dim) _ pre _
                  (show pre.length = (dims.take dim).length by rw [hpre, htakelen]),
                addr_append _ _ _ _ hseglen]
      _ = addr dims
            (pre ++ (unflatten (((dims.drop dim).take rank).map Prod.fst) f ++ post)) := by
            rw [← hdecomp]
  · intro hc
    unfold memref_fold
    rw [if_pos ⟨hlen, hrank⟩]
    simp only [hc]
    rfl

/-- Closed-form witness for `memref_fold_spec`, at the packed view
`shape (4,4,4)`, `strides (16,4,1)`, `fold(dim=1, rank=2)`. -/
theorem memref_fold_spec_witness :
    (contig (([(4, 16), (4, 4), (4, 1)].drop 1).take 2) = true →
      memref_fold [(4, 16), (4, 4), (4, 1)] 1 2
          = Except.ok ([(4, 16), (4, 4), (4, 1)].take 1
              ++ (prodShapes (([(4, 16), (4, 4), (4, 1)].drop 1).take 2),
                  lastStride (([(4, 16), (4, 4), (4, 1)].drop 1).take 2))
                :: [(4, 16), (4, 4), (4, 1)].drop 3)
      ∧ ∀ (pre post : List Nat) (f : Nat), pre.length = 1 →
          f < prodShapes (([(4, 16), (4, 4), (4, 1)].drop 1).take 2) →
          addr ([(4, 16), (4, 4), (4, 1)].take 1
              ++ (prodShapes (([(4, 16), (4, 4), (4, 1)].drop 1).take 2),
                  lastStride (([(4, 16), (4, 4), (4, 1)].drop 1).take 2))
                :: [(4, 16), (4, 4), (4, 1)].drop 3)
            (pre ++ f :: post)
          = addr [(4, 16), (4, 4), (4, 1)]
              (pre ++ (unflatten ((([(4, 16), (4, 4), (4, 1)].drop 1).take 2).map Prod.fst) f
                ++ post)))
    ∧ (contig (([(4, 16), (4, 4), (4, 1)].drop 1).take 2) = false →
        memref_fold [(4, 16), (4, 4), (4, 1)] 1 2
          = Except.error "NotImplementedError: fold of non-contiguous dims") :=
  memref_fold_spec [(4, 16), (4, 4), (4, 1)] 1 2 (by norm_num) (by norm_num)

/-! ### Regular semaphores -/

/-- An operation on a regular semaphore. -/
inductive SemOp where
  | signal : Nat → SemOp
  | wait : Nat → SemOp

/-- Modelled from the spec: the regular-semaphore counter semantics of
`semaphore_signal` / `semaphore_wait` (the TPU runtime implementing them is
not among the sources, only its tests are).  Per §3, signal increments the
counter by the given amount and wait blocks until the counter is at least the
requested amount, then decrements; in this sequential trace semantics a wait
that can never be satisfied yields `none` (it never completes). -/
def runSem : List SemOp → Nat → Option Nat
  | [], c => some c
  | SemOp.signal n :: rest, c => runSem rest (c + n)
  | SemOp.wait n :: rest, c => if n ≤ c then runSem rest (c - n) else none

lemma runSem_signals (sigs : List Nat) (rest : List SemOp) (c : Nat) :
    runSem (sigs.map SemOp.signal ++ rest) c = runSem rest (c + sigs.sum) := by
  induction sigs generalizing c with
  | nil => simp [runSem]
  | cons s ss ih =>
    simp only [List.map_cons, List.cons_append, runSem, List.sum_cons,
      List.append_eq]
    rw [ih]
    congr 1
    omega

lemma runSem_waits_done (ws : List Nat) (c : Nat) (h : ws.sum ≤ c) :
    runSem (ws.map SemOp.wait) c = some (c - ws.sum) := by
  induction ws generalizing c with
  | nil => simp [runSem]
  | cons w ws ih =>
    simp only [List.map_cons, runSem, List.sum_cons] at *
    rw [if_pos (by omega), ih (c - w) (by omega)]
    congr 1
    omega

lemma runSem_waits_blocked (ws : List Nat) (c : Nat) (h : c < ws.sum) :
    runSem (ws.map SemOp.wait) c = none := by
  induction ws generalizing c with
  | nil => simp at h
  | cons w ws ih =>
    simp only [List.map_cons, runSem, List.sum_cons] at *
    by_cases hw : w ≤ c
    · rw [if_pos hw]
      exact ih (c - w) (by omega)
    · rw [if_neg hw]

/-- C4: for every regular semaphore, any sequence of signals followed by
waits whose requested amounts sum to the signaled total completes every wait
and returns the counter to zero; when the waits request more than the
signaled total, the trailing unsatisfiable wait never completes — a
not-yet-satisfied wait is never treated as complete. -/
theorem semaphore_conservation (sigs waits : List Nat) :
    (waits.sum = sigs.sum →
      runSem (sigs.map SemOp.signal ++ waits.map SemOp.wait) 0 = some 0)
    ∧ (sigs.sum < waits.sum →
      runSem (sigs.map SemOp.signal ++ waits.map SemOp.wait) 0 = none) := by
  constructor
  · intro h
    rw [runSem_signals, Nat.zero_add, runSem_waits_done waits sigs.sum (by omega)]
    congr 1
    omega
  · intro h
    rw [runSem_signals, Nat.zero_add]
    exact runSem_waits_blocked waits sigs.sum h

/-- Closed-form witness for `semaphore_conservation`: the signal/wait traces
of `test_can_wait_on_semaphore` (signal 2 then wait twice, and three unit
signals then three unit waits), and one extra unsatisfied wait. -/
theorem semaphore_conservation_witness :
    runSem ([2].map SemOp.signal ++ [1, 1].map SemOp.wait) 0 = some 0
    ∧ runSem ([1, 1, 1].map SemOp.signal ++ [1, 1, 1].map SemOp.wait) 0 = some 0
    ∧ runSem ([2].map SemOp.signal ++ [1, 1, 1].map SemOp.wait) 0 = none :=
  ⟨(semaphore_conservation [2] [1, 1]).1 (by norm_num),
   (semaphore_conservation [1, 1, 1] [1, 1, 1]).1 (by norm_num),
   (semaphore_conservation [2] [1, 1, 1]).2 (by norm_num)⟩

/-! ### DMA semaphore handles and async copies -/

/-- A DMA semaphore allocation: its shape (empty list = scalar). -/
structure DmaSem where
  shape : List Nat

/-- A semaphore argument handed to an async copy: either the whole allocated
semaphore, or one explicitly indexed scalar slot of it (e.g. `sem.at[0]`). -/
inductive SemHandle where
  | whole : DmaSem → SemHandle
  | slot : DmaSem → Nat → SemHandle

/-- Modelled from the spec: the construction-time validation and data
movement of `async_copy` (the TPU runtime implementing it is not among the
sources, only its tests are).  Per §3/§4.3, a DMA semaphore allocated as a
non-scalar array cannot be the target of a single scalar signal and must be
addressed through an explicit slot; a valid copy transfers the full source
into the destination. -/
def async_copy {α : Type} (src dst : List α) (sem : SemHandle) :
    Except String (List α) :=
  match sem with
  | SemHandle.whole s =>
      if s.shape = [] then
        if src.length = dst.length then Except.ok src
        else Except.error "src and dst shapes do not match"
      else Except.error "Cannot signal on a non-scalar semaphore"
  | SemHandle.slot _ _ =>
      if src.length = dst.length then Except.ok src
      else Except.error "src and dst shapes do not match"

/-- C5: passing a DMA semaphore allocated with a non-scalar (array) shape
directly as the copy's semaphore fails at construction with a `Cannot signal`
error, while passing an explicitly indexed scalar slot of the same array
semaphore succeeds and the copy completes with destination equal to
source. -/
theorem dma_semaphore_slot_spec {α : Type} (src dst : List α)
    (shape : List Nat) (hne : shape ≠ []) (hlen : src.length = dst.length) :
    async_copy src dst (SemHandle.whole ⟨shape⟩)
        = Except.error "Cannot signal on a non-scalar semaphore"
    ∧ async_copy src dst (SemHandle.slot ⟨shape⟩ 0) = Except.ok src := by
  constructor
  · simp [async_copy, hne]
  · simp [async_copy, hlen]

/-- Closed-form witness for `dma_semaphore_slot_spec`. -/
theorem dma_semaphore_slot_spec_witness :
    async_copy [10, 20] [0, 0] (SemHandle.whole ⟨[1]⟩)
        = Except.error "Cannot signal on a non-scalar semaphore"
    ∧ async_copy [10, 20] [0, 0] (SemHandle.slot ⟨[1]⟩ 0) = Except.ok [10, 20] :=
  dma_semaphore_slot_spec [10, 20] [0, 0] [1] (by simp) (by simp)

/-! ### Dynamic-size DMA -/

/-- Modelled from the spec: a dynamic-size async copy of the leading `count`
linear elements of the source over the destination (the TPU runtime
implementing `async_copy` with a dynamic `pl.ds(0, size)` slice is not among
the sources, only its tests are).  Each copied offset is stored in turn; all
other offsets keep the destination's pre-copy contents. -/
def dmaCopyLeading {α : Type} (count : Nat) (src dst : Nat → α) : Nat → α :=
  storeAll (fun i => i) src dst count

/-- C6: a dynamic-size copy of `size = 4` leading rows of an 8×8×128 int32
source `x` with `x[i, j, l] = i` into a zero destination leaves destination
rows `[0, 4)` equal to the source rows and rows `[4, 8)` equal to the
destination's original contents (zero). -/
theorem dynamic_size_dma (i j l : Nat) (hi : i < 8) (hj : j < 8) (hl : l < 128) :
    dmaCopyLeading (4 * 1024) (fun a => a / 1024) (fun _ => 0)
        (i * 1024 + j * 128 + l) = if i < 4 then i else 0 := by
  unfold dmaCopyLeading
  by_cases h4 : i < 4
  · rw [if_pos h4]
    have hin : i * 1024 + j * 128 + l < 4 * 1024 := by omega
    calc storeAll (fun x => x) (fun a => a / 1024) (fun _ => 0) (4 * 1024)
          (i * 1024 + j * 128 + l)
        = (i * 1024 + j * 128 + l) / 1024 :=
          storeAll_hit (fun x => x) (fun a => a / 1024) (fun _ => 0) (4 * 1024)
            (fun a _ b _ hab => hab) (i * 1024 + j * 128 + l) hin
    _ = i := by omega
  · rw [if_neg h4]
    apply storeAll_miss
    intro a ha
    show a ≠ i * 1024 + j * 128 + l
    omega

/-- Closed-form witness for `dynamic_size_dma`: one copied row entry and one
untouched row entry. -/
theorem dynamic_size_dma_witness :
    dmaCopyLeading (4 * 1024) (fun a => a / 1024) (fun _ => 0)
        (2 * 1024 + 3 * 128 + 5) = (if 2 < 4 then 2 else 0)
    ∧ dmaCopyLeading (4 * 1024) (fun a => a / 1024) (fun _ => 0)
        (6 * 1024 + 3 * 128 + 5) = (if 6 < 4 then 6 else 0) :=
  ⟨dynamic_size_dma 2 3 5 (by norm_num) (by norm_num) (by norm_num),
   dynamic_size_dma 6 3 5 (by norm_num) (by norm_num) (by norm_num)⟩

/-! ### Several outstanding copies on one DMA semaphore -/

/-- An operation of a kernel issuing async copies against one scalar DMA
semaphore: `copy srcLo dstLo count` issues a transfer of `count` linear
elements, `wait` consumes one completed transfer. -/
inductive DmaOp where
  | copy : Nat → Nat → Nat → DmaOp
  | wait : DmaOp

/-- Modelled from the spec: the DMA-typed semaphore protocol (the TPU runtime
is not among the sources, only its tests are).  Per §3, a DMA semaphore is
tied to in-flight transfers: issuing a copy performs the transfer and records
one completion; a wait consumes exactly one completed transfer and never
completes when no completion is available. -/
def runDma {α : Type} (x : Nat → α) :
    List DmaOp → (Nat → α) → Nat → Option ((Nat → α) × Nat)
  | [], dst, cnt => some (dst, cnt)
  | DmaOp.copy sLo dLo n :: rest, dst, cnt =>
      runDma x rest
        (fun a => if dLo ≤ a ∧ a < dLo + n then x (sLo + (a - dLo)) else dst a)
        (cnt + 1)
  | DmaOp.wait :: rest, dst, cnt =>
      if 1 ≤ cnt then runDma x rest dst (cnt - 1) else none

set_option maxRecDepth 1000000 in
/-- C10: one scalar DMA semaphore tracks two simultaneously outstanding async
copies: issuing the two row-slice copies of `test_hbm_vmem_dma_slicing`
(rows `[0, 8)` and `[8, 16)` of a 16×128 buffer, 1024 elements each) before
waiting, then waiting once per copy, completes both transfers (final
completion count zero) and leaves the destination equal to the concatenation
of the copied slices, i.e. equal to the source everywhere. -/
theorem dma_shared_semaphore (x d0 : Nat → Int) (a : Nat) (ha : a < 2048) :
    ∃ y, runDma x [DmaOp.copy 0 0 1024, DmaOp.copy 1024 1024 1024,
          DmaOp.wait, DmaOp.wait] d0 0 = some (y, 0) ∧ y a = x a := by
  refine ⟨fun b => if 1024 ≤ b ∧ b < 1024 + 1024 then x (1024 + (b - 1024))
      else if 0 ≤ b ∧ b < 0 + 1024 then x (0 + (b - 0)) else d0 b, rfl, ?_⟩
  show (if 1024 ≤ a ∧ a < 1024 + 1024 then x (1024 + (a - 1024))
      else if 0 ≤ a ∧ a < 0 + 1024 then x (0 + (a - 0)) else d0 a) = x a
  by_cases h2 : 1024 ≤ a ∧ a < 1024 + 1024
  · rw [if_pos h2]
    congr 1
    omega
  · rw [if_neg h2, if_pos (show 0 ≤ a ∧ a < 0 + 1024 by omega)]
    congr 1
    omega

/-- Closed-form witness for `dma_shared_semaphore`. -/
theorem dma_shared_semaphore_witness :
    ∃ y, runDma (fun _ => (7 : Int)) [DmaOp.copy 0 0 1024,
          DmaOp.copy 1024 1024 1024, DmaOp.wait, DmaOp.wait] (fun _ => 0) 0
        = some (y, 0) ∧ y 100 = (fun _ => (7 : Int)) 100 :=
  dma_shared_semaphore (fun _ => (7 : Int)) (fun _ => 0) 100 (by norm_num)

/-! ### The pipelining coordinator and the tiled matmul body -/

/-- One grid step of the tiled matmul body of `test_double_pipeline_matmul`:
at inner step `k = 0` the output block entry is zeroed, then the `B`-wide
block product contribution `x[r, k*B .. k*B+B) · y[k*B .. k*B+B, c)` is added
to it. -/
def pipelineEntry (B : Nat) (x y : Nat → Nat → Int) (r c : Nat)
    (acc : Int) (k : Nat) : Int :=
  (if k = 0 then 0 else acc)
    + ∑ t ∈ Finset.range B, x r (k * B + t) * y (k * B + t) c

/-- Modelled from the spec: the pipelining coordinator `emit_pipeline` is not
among the sources (only its tests are).  Per §4.4, it drives the body over
the inner grid dimension (`gK` steps of block width `B`) against the output
block the entry belongs to; with `shouldAcc` (the `should_accumulate_out`
flag) the computed output block is added into the existing output `z`
instead of overwriting it. -/
def runPipeline (shouldAcc : Bool) (gK B : Nat) (x y z : Nat → Nat → Int) :
    Nat → Nat → Int :=
  fun r c =>
    let zblk := (List.range gK).foldl (pipelineEntry B x y r c) 0
    if shouldAcc then z r c + zblk else zblk

/-- The reference product: entry `(r, c)` of `dot(x, y)` over an inner
dimension of size `K`. -/
def dotProd (K : Nat) (x y : Nat → Nat → Int) (r c : Nat) : Int :=
  ∑ t ∈ Finset.range K, x r t * y t c

lemma foldl_pipelineEntry (B : Nat) (x y : Nat → Nat → Int) (r c : Nat)
    (gK : Nat) (hgK : 1 ≤ gK) (init : Int) :
    (List.range gK).foldl (pipelineEntry B x y r c) init
      = ∑ k ∈ Finset.range gK, ∑ t ∈ Finset.range B,
          x r (k * B + t) * y (k * B + t) c := by
  induction gK with
  | zero => omega
  | succ m ih =>
    rw [List.range_succ, List.foldl_append]
    simp only [List.foldl_cons, List.foldl_nil]
    by_cases hm : m = 0
    · subst hm
      simp [pipelineEntry]
    · rw [ih (by omega), pipelineEntry, if_neg hm, Finset.sum_range_succ]

lemma sum_blocks (K B : Nat) (h : Nat → Int) :
    ∑ k ∈ Finset.range K, ∑ t ∈ Finset.range B, h (k * B + t)
      = ∑ T ∈ Finset.range (K * B), h T := by
  induction K with
  | zero => simp
  | succ m ih =>
    have hKB : (m + 1) * B = m * B + B := by ring
    have hseg : ∑ t ∈ Finset.range B, h (m * B + t)
        = ∑ T ∈ Finset.Ico (m * B) (m * B + B), h T := by
      rw [Finset.sum_Ico_eq_sum_range]
      simp only [Nat.add_sub_cancel_left]
    rw [Finset.sum_range_succ, ih, hKB, hseg, Finset.range_eq_Ico,
      Finset.sum_Ico_consecutive h (Nat.zero_le (m * B))
        (Nat.le_add_right (m * B) B)]

/-- C7: running the pipelined tiled-matmul body once with
`should_accumulate_out = false` and then again with
`should_accumulate_out = true` over the same output produces
`dot(x, y) + dot(x, y)`: the accumulation-mode invocation adds its partial
results into the existing output block instead of overwriting it.  Stated
for the test's 4-step inner grid of 128-wide blocks (512 inner dimension). -/
theorem double_pipeline_matmul (x y z : Nat → Nat → Int) (r c : Nat) :
    runPipeline true 4 128 x y (runPipeline false 4 128 x y z) r c
      = dotProd 512 x y r c + dotProd 512 x y r c := by
  have hfold : (List.range 4).foldl (pipelineEntry 128 x y r c) 0
      = dotProd 512 x y r c := by
    rw [foldl_pipelineEntry 128 x y r c 4 (by norm_num) 0,
      sum_blocks 4 128 (fun T => x r T * y T c)]
    rfl
  simp only [runPipeline, if_true, if_false, Bool.false_eq_true, hfold]

/-! ### WGMMA matrix-multiply accumulation -/

/-- Operand order for a WGMMA operand (row-major, or column-major for a
transposed operand). -/
inductive WGMMALayout where
  | rowMajor
  | colMajor
deriving DecidableEq

/-- Element type of the WGMMA operands. -/
inductive MLIRDtype where
  | f16
  | bf16
  | f32
deriving DecidableEq

/-- Modelled from the spec: the `wgmma` matrix-multiply-accumulate operation
is not among the sources (only its tests are).  Per §4.2, 32-bit float
inputs are only supported through a reduced-precision path that quantizes
the operand values (`quant`, the tf32 exponent/mantissa reduction), and a
transposed (column-major) left operand together with 32-bit inputs is
unsupported and must fail fast with a capability error. -/
def wgmma (dtype : MLIRDtype) (aOrder : WGMMALayout) (quant : Int → Int)
    (kdim : Nat) (acc lhs rhs : Nat → Nat → Int) :
    Except String (Nat → Nat → Int) :=
  match dtype, aOrder with
  | MLIRDtype.f32, WGMMALayout.colMajor =>
      Except.error "capability: transpose only supported in 16-bit WGMMA"
  | MLIRDtype.f32, WGMMALayout.rowMajor =>
      Except.ok fun i j => acc i j
        + ∑ t ∈ Finset.range kdim, quant (lhs i t) * quant (rhs t j)
  | _, _ =>
      Except.ok fun i j => acc i j
        + ∑ t ∈ Finset.range kdim, lhs i t * rhs t j

/-- C8: with 32-bit float inputs, a transposed (column-major) left operand
fails fast with a capability error; without left-operand transposition the
operands are accepted through the reduced-precision (tf32-quantized) path,
and on inputs that are fixed points of the quantization (as the test
pre-quantizes its inputs) the zero-initialized accumulation equals the exact
reference product. -/
theorem wgmma_f32_spec (quant : Int → Int) (kdim : Nat)
    (lhs rhs : Nat → Nat → Int)
    (hql : ∀ i j, quant (lhs i j) = lhs i j)
    (hqr : ∀ i j, quant (rhs i j) = rhs i j) :
    wgmma MLIRDtype.f32 WGMMALayout.colMajor quant kdim (fun _ _ => 0) lhs rhs
        = Except.error "capability: transpose only supported in 16-bit WGMMA"
    ∧ wgmma MLIRDtype.f32 WGMMALayout.rowMajor quant kdim (fun _ _ => 0) lhs rhs
        = Except.ok fun i j => dotProd kdim lhs rhs i j := by
  constructor
  · rfl
  · show Except.ok (fun i j => (0 : Int)
        + ∑ t ∈ Finset.range kdim, quant (lhs i t) * quant (rhs t j))
      = Except.ok fun i j => dotProd kdim lhs rhs i j
    congr 1
    funext i j
    simp [dotProd, hql, hqr]

/-- Closed-form witness for `wgmma_f32_spec`. -/
theorem wgmma_f32_spec_witness :
    wgmma MLIRDtype.f32 WGMMALayout.colMajor (fun v => v) 2
          (fun _ _ => 0) (fun _ _ => 1) (fun _ _ => 1)
        = Except.error "capability: transpose only supported in 16-bit WGMMA"
    ∧ wgmma MLIRDtype.f32 WGMMALayout.rowMajor (fun v => v) 2
          (fun _ _ => 0) (fun _ _ => 1) (fun _ _ => 1)
        = Except.ok fun i j => dotProd 2 (fun _ _ => 1) (fun _ _ => 1) i j :=
  wgmma_f32_spec (fun v => v) 2 (fun _ _ => 1) (fun _ _ => 1)
    (fun _ _ => rfl) (fun _ _ => rfl)

end JaxMemXform
